import Mathlib

/-!
TARDIS Monte Carlo kernel: `cmontecarlo.c`.

A shallow embedding of `src/tardis/cmontecarlo.c` and theorems about it.

Modelling conventions.

* A pointer `npy_float64 *x` is a map `Int → K`: `x[i]` is `x i` for every
  integer `i`; a table of length `n` occupies the indices `0 .. n-1`.
* `line_search` and `binary_search` only compare `npy_float64` values; there
  the values are elements of a linearly ordered type `K` (doubles without NaN).
* Where the value of a double computation matters (`compute_distance2line`,
  the running sum of `macro_atom`), the C operators are arguments of the
  definition (`FloatOps`, `add`, `lt`) and nothing is assumed about them: what
  is proved holds of IEEE 754 binary64, rounding, infinities and NaN included.
  Concrete runs use `Double` (finite binary64 values with correctly rounded
  addition) or `exact_ops` (rational arithmetic, at inputs where every
  intermediate result is a binary64 number).
* `compute_distance2inner`, `macro_atom_walk` and `macro_atom` are also given
  over an ordered field; they carry the statements that depend on the control
  flow alone.
* `npy_int64` values are integers; the index arithmetic of the code cannot
  leave the 64-bit range for indices of a real table.  The local `int imid`
  of `binary_search` is 32 bits wide: the assignment `imid = (imin + imax) / 2`
  is modelled with an explicit wrap to that range (`wrap32`).
* `imid` is read after the bisection loop even when the loop body never ran;
  its indeterminate initial content is the explicit argument `imid0`.
* Loops are run with a fuel argument; `Res.diverged` (or `none`) is the
  outcome of a loop that is still running when the fuel is spent.
* `PyErr_SetString(...)` followed by `return v` is the outcome `Res.raised v`.
-/

set_option linter.unusedVariables false

namespace Tardis

/-- Outcome of a call: a normal return, a return with the Python error
indicator set, or a loop that did not finish within the fuel. -/
inductive Res (α : Type) where
  | ret (v : α) : Res α
  | raised (v : α) : Res α
  | diverged : Res α
  deriving DecidableEq, Repr

/-- The value stored by a conversion of a 64-bit integer to a 32-bit `int`. -/
def wrap32 (z : Int) : Int :=
  (z + 2147483648) % 4294967296 - 2147483648

/-- The `while (imax - imin > 2)` loop of `binary_search` (lines 30-41), as a
function of the loop state `(imin, imax, imid)`; it returns the state on exit. -/
def binary_search_loop {K : Type} [LinearOrder K] (x : Int → K) (x_insert : K) :
    Nat → Int → Int → Int → Option (Int × Int × Int)
  | 0, imin, imax, imid =>
      if imax - imin > 2 then none else some (imin, imax, imid)
  | fuel + 1, imin, imax, imid =>
      if imax - imin > 2 then
        let imid1 := wrap32 (Int.tdiv (imin + imax) 2)
        if x imid1 < x_insert then
          binary_search_loop x x_insert fuel imin (imid1 + 1) imid1
        else
          binary_search_loop x x_insert fuel imid1 imax imid1
      else some (imin, imax, imid)

/-- Lines 22-50: `binary_search(x, x_insert, imin, imax)`. -/
def binary_search {K : Type} [LinearOrder K] (fuel : Nat) (x : Int → K) (x_insert : K)
    (imin imax imid0 : Int) : Res Int :=
  if x_insert > x imin ∨ x_insert < x imax then
    Res.raised (-1)
  else
    match binary_search_loop x x_insert fuel imin imax imid0 with
    | none => Res.diverged
    | some (imin1, imax1, imid1) =>
        if imax1 - imid1 = 2 then
          if x_insert < x (imin1 + 1) then Res.ret (imin1 + 1) else Res.ret imin1
        else Res.ret imin1

/-- Lines 3-20: `line_search(nu, nu_insert, number_of_lines)`.  The last branch
returns `binary_search(...) + 1` whatever `binary_search` did. -/
def line_search {K : Type} [LinearOrder K] (fuel : Nat) (nu : Int → K) (nu_insert : K)
    (number_of_lines imid0 : Int) : Res Int :=
  let imin : Int := 0
  let imax : Int := number_of_lines - 1
  if nu_insert > nu imin then
    Res.ret imin
  else if nu_insert < nu imax then
    Res.ret (imax + 1)
  else
    match binary_search fuel nu nu_insert imin imax imid0 with
    | Res.ret k => Res.ret (k + 1)
    | Res.raised k => Res.raised (k + 1)
    | Res.diverged => Res.diverged

/-- A table given by its entries: index `i` holds the `i`-th entry of `l`, and
every index outside `0 .. l.length - 1` holds `d`. -/
def table {K : Type} (l : List K) (d : K) (i : Int) : K :=
  if i < 0 then d else l.getD i.toNat d

/-- Lines 57-68: `compute_distance2inner(r, mu, r_inner)`; the constant
`MISS_DISTANCE` is defined outside the two source files and is an argument. -/
def compute_distance2inner {K : Type} [LinearOrderedField K] (sqrt : K → K)
    (MISS_DISTANCE : K) (r mu r_inner : K) : K :=
  let check := r_inner * r_inner + (r * r * (mu * mu - 1))
  if check < 0 then
    MISS_DISTANCE
  else
    if mu < 0 then -r * mu - sqrt check else MISS_DISTANCE

/-- The inner `while (1)` loop of `macro_atom` (lines 108-118), entered with
running sum `p` at index `i`; `off` is `cur_zone_id * p_transition_nd`.  It
returns the index at which the loop breaks. -/
def macro_atom_walk {K : Type} [LinearOrderedField K] (p_transition : Int → K) (off : Int)
    (event_random : K) : Nat → K → Int → Option Int
  | 0, _, _ => none
  | fuel + 1, p, i =>
      let p1 := p + p_transition (off + i)
      if p1 > event_random then some i
      else macro_atom_walk p_transition off event_random fuel p1 (i + 1)

/-- Lines 99-124: `macro_atom`.  The generator `rk_double(&mt_state)` is the
stream `rand`, of which `draws` numbers have been consumed already; the result
is the returned line id together with the number of draws consumed so far.
`wfuel` bounds each inner walk, the first `Nat` argument bounds the number of
cascade steps. -/
def macro_atom {K : Type} [LinearOrderedField K] (rand : Nat → K) (wfuel : Nat)
    (p_transition : Int → K) (p_transition_nd : Int)
    (type_transition target_level_id target_line_id unroll_reference : Int → Int)
    (cur_zone_id : Int) : Nat → Int → Nat → Option (Int × Nat)
  | 0, _, _ => none
  | fuel + 1, activate_level, draws =>
      let event_random := rand draws
      match macro_atom_walk p_transition (cur_zone_id * p_transition_nd) event_random wfuel 0
          (unroll_reference activate_level) with
      | none => none
      | some i =>
          let emit := type_transition i
          if emit = -1 then some (target_line_id i, draws + 1)
          else macro_atom rand wfuel p_transition p_transition_nd type_transition
            target_level_id target_line_id unroll_reference cur_zone_id fuel
            (target_level_id i) (draws + 1)

/-- A two-transition probability segment at indices `0` and `1`: probability
`1/4` then `3/4`, and `0` elsewhere. -/
def split_segment (i : Int) : ℚ :=
  if i = 0 then 1 / 4 else if i = 1 then 3 / 4 else 0

/-- A descending table without end: index `i` holds `-i`. -/
def ramp (i : Int) : Int := -i

/-- Segment starts of the two levels of `short_segment`. -/
def short_unroll (level : Int) : Int :=
  if level = 0 then 0 else 2

/-- Transition types for `short_segment`: only the transition at index `2`
is an emission. -/
def short_type (i : Int) : Int :=
  if i = 2 then -1 else 0

/-- Transition types for the level of `split_segment`: the transition at
index `0` is an emission, the one at index `1` is internal. -/
def cycle_type (i : Int) : Int :=
  if i = 0 then -1 else 0

/-- A random stream: the first draw is `1/2`, every later draw is `1/8`. -/
def cycle_rand (n : Nat) : ℚ :=
  if n = 0 then 1 / 2 else 1 / 8

/-- The C operators on `npy_float64` that `compute_distance2line` uses, left
abstract: `sub`, `mul`, `div` are `-`, `*`, `/`, `lt` is `<`, and `zero`, `one`
are the constants `0` and `1.0`.  Nothing is assumed about them, so a statement
proved for every `FloatOps` holds of IEEE 754 binary64 with its rounding,
infinities and NaN. -/
structure FloatOps (F : Type) where
  sub : F → F → F
  mul : F → F → F
  div : F → F → F
  lt : F → F → Bool
  zero : F
  one : F

/-- Lines 70-92: `compute_distance2line`, over abstract double operators; the
constants `C` and `INVERSE_C` are defined outside the two source files and are
arguments.  The diagnostic output on `stderr` is not modelled. -/
def compute_distance2line {F : Type} (ops : FloatOps F) (C INVERSE_C : F)
    (r mu nu nu_line t_exp inverse_t_exp : F) (last_line next_line : F)
    (cur_zone_id : Int) : Res F :=
  let doppler_factor :=
    ops.sub ops.one (ops.mul (ops.mul (ops.mul mu r) inverse_t_exp) INVERSE_C)
  let comov_nu := ops.mul nu doppler_factor
  if ops.lt comov_nu nu_line then
    Res.raised ops.zero
  else
    Res.ret (ops.mul (ops.mul (ops.div (ops.sub comov_nu nu_line) nu) C) t_exp)

/-- Rational arithmetic as an instance of `FloatOps`.  IEEE 754 operations are
correctly rounded, so binary64 returns the same value at every operation whose
rational result is a binary64 number; the instance is used only to evaluate
the model at inputs where that is the case for every step. -/
def exact_ops : FloatOps ℚ where
  sub := fun a b => a - b
  mul := fun a b => a * b
  div := fun a b => a / b
  lt := fun a b => decide (a < b)
  zero := 0
  one := 1

/-- The inner `while (1)` loop of `macro_atom` (lines 108-118) with the double
addition `add` and the double comparison `lt` left abstract: `p > event_random`
is `lt event_random p`.  `macro_atom_walk` is the instance with the addition
and order of a field. -/
def macro_atom_walk_fp {F : Type} (add : F → F → F) (lt : F → F → Bool)
    (p_transition : Int → F) (off : Int) (event_random : F) : Nat → F → Int → Option Int
  | 0, _, _ => none
  | fuel + 1, p, i =>
      let p1 := add p (p_transition (off + i))
      if lt event_random p1 then some i
      else macro_atom_walk_fp add lt p_transition off event_random fuel p1 (i + 1)

/-- The value of `p` after `m` passes of the inner loop of `macro_atom` that
started at index `s` with `p = start`: the running sum as the code accumulates
it, one double addition per entry, in index order. -/
def running_sum {F : Type} (add : F → F → F) (p_transition : Int → F) (off s : Int)
    (start : F) : Nat → F
  | 0 => start
  | m + 1 => add (running_sum add p_transition off s start m)
      (p_transition (off + (s + (m : Int))))

/-- Lines 99-124: `macro_atom` over the abstract double addition and
comparison; `zero` is the constant `0.0`.  The outcome is a `Res`, so that a
return with the error indicator set could be told from a normal return. -/
def macro_atom_fp {F : Type} (add : F → F → F) (lt : F → F → Bool) (zero : F)
    (rand : Nat → F) (wfuel : Nat) (p_transition : Int → F) (p_transition_nd : Int)
    (type_transition target_level_id target_line_id unroll_reference : Int → Int)
    (cur_zone_id : Int) : Nat → Int → Nat → Res (Int × Nat)
  | 0, _, _ => Res.diverged
  | fuel + 1, activate_level, draws =>
      let event_random := rand draws
      match macro_atom_walk_fp add lt p_transition (cur_zone_id * p_transition_nd)
          event_random wfuel zero (unroll_reference activate_level) with
      | none => Res.diverged
      | some i =>
          let emit := type_transition i
          if emit = -1 then Res.ret (target_line_id i, draws + 1)
          else macro_atom_fp add lt zero rand wfuel p_transition p_transition_nd
            type_transition target_level_id target_line_id unroll_reference cur_zone_id
            fuel (target_level_id i) (draws + 1)

/-- A finite binary64 value, written `m * 2^e`. -/
structure Double where
  m : Int
  e : Int
  deriving DecidableEq, Repr

/-- Number of binary digits of `n`, for `n < 2^fuel`. -/
def bit_length : Nat → Nat → Nat
  | 0, _ => 0
  | fuel + 1, n => if n = 0 then 0 else bit_length fuel (n / 2) + 1

/-- Rounding of `m * 2^e` to 53 significant bits, to nearest, ties to even
(for `|m| < 2^2200`, which covers every sum of two binary64 values). -/
def double_round (m e : Int) : Double :=
  let a := m.natAbs
  if a < 9007199254740992 then ⟨m, e⟩
  else
    let s := bit_length 2200 a - 53
    let q := a / 2 ^ s
    let r := a % 2 ^ s
    let h := 2 ^ (s - 1)
    let q1 := if r > h ∨ (r = h ∧ q % 2 = 1) then q + 1 else q
    ⟨if m < 0 then -(q1 : Int) else (q1 : Int), e + (s : Int)⟩

/-- Binary64 addition of finite values: the exact sum, rounded.  It is the IEEE
754 result whenever that result is finite (a sum in the subnormal range is
exact, so only overflow is left out). -/
def double_add (x y : Double) : Double :=
  let e := min x.e y.e
  double_round (x.m * 2 ^ (x.e - e).toNat + y.m * 2 ^ (y.e - e).toNat) e

/-- Binary64 `<` on finite values. -/
def double_lt (x y : Double) : Bool :=
  let e := min x.e y.e
  decide (x.m * 2 ^ (x.e - e).toNat < y.m * 2 ^ (y.e - e).toNat)

/-- A probability table in binary64.  The segment of level `0` is the indices
`0 .. 3` with the entries `0.5`, `2^-54`, `2^-54`, `0.5 - 2^-53`, whose sum is
exactly `1`; every other index (the segments of later levels) holds `1`. -/
def rounded_segment (i : Int) : Double :=
  if i = 0 then ⟨1, -1⟩
  else if i = 1 ∨ i = 2 then ⟨1, -54⟩
  else if i = 3 then ⟨4503599627370495, -53⟩
  else ⟨1, 0⟩

/-- A binary64 probability table with two levels: the segment of level `0` is
the indices `0` and `1` (probabilities `0.25` and `0.25`, which sum to `0.5`
only); the segment of level `1` is the index `2` (probability `1`). -/
def short_segment (i : Int) : Double :=
  if i = 0 then ⟨1, -2⟩ else if i = 1 then ⟨1, -2⟩ else if i = 2 then ⟨1, 0⟩ else ⟨0, 0⟩

/-- The exact sum of two binary64 values, not rounded: its mantissa may need
more than 53 bits. -/
def exact_add (x y : Double) : Double :=
  let e := min x.e y.e
  ⟨x.m * 2 ^ (x.e - e).toNat + y.m * 2 ^ (y.e - e).toNat, e⟩

/-! ## Bisection: helper lemmas -/

theorem wrap32_of_range (z : Int) (h0 : -2147483648 ≤ z) (h1 : z < 2147483648) :
    wrap32 z = z := by
  unfold wrap32
  omega

theorem midpoint_eq (a b : Int) (ha : 0 ≤ a) (hab : a ≤ b) (hb : b < 2147483648) :
    wrap32 (Int.tdiv (a + b) 2) = (a + b) / 2 := by
  have h : Int.tdiv (a + b) 2 = (a + b) / 2 :=
    Int.tdiv_eq_ediv (by omega) (by omega)
  rw [h]
  apply wrap32_of_range <;> omega

theorem binary_search_loop_exit {K : Type} [LinearOrder K] (x : Int → K) (v : K)
    (fuel : Nat) (imin imax imid : Int) (h : imax - imin ≤ 2) :
    binary_search_loop x v fuel imin imax imid = some (imin, imax, imid) := by
  have h2 : ¬ (imax - imin > 2) := by omega
  cases fuel <;> simp [binary_search_loop, h2]

/-- The loop invariant of the bisection, carried to the exit: entered with a
bracket wider than 2 on a descending table, the loop leaves a bracket of width
exactly 2, and `imid` is either the new `imin` or `imax - 1`. -/
theorem binary_search_loop_spec {K : Type} [LinearOrder K] (x : Int → K) (v : K) :
    ∀ (fuel : Nat) (imin imax imid : Int), 0 ≤ imin → imax < 2147483648 →
      imax - imin ≤ fuel →
      (∀ i, imin ≤ i → i < imax → x (i + 1) ≤ x i) →
      x imax ≤ v → v ≤ x imin → 2 < imax - imin →
      ∃ a m, binary_search_loop x v fuel imin imax imid = some (a, a + 2, m) ∧
        imin ≤ a ∧ a + 2 ≤ imax ∧ x (a + 2) ≤ v ∧ v ≤ x a ∧
        (m = a ∨ (m = a + 1 ∧ x m < v)) := by
  intro fuel
  induction fuel with
  | zero =>
      intro imin imax imid _ _ hf _ _ _ hw
      simp at hf
      omega
  | succ n ih =>
      intro imin imax imid h0 h1 hf hx hlo hhi hw
      have hmid := midpoint_eq imin imax h0 (by omega) h1
      have hw2 : imax - imin > 2 := hw
      simp only [binary_search_loop, hw2, if_true, hmid]
      push_cast at hf
      by_cases hc : x ((imin + imax) / 2) < v
      · simp only [hc, if_true]
        by_cases hd : 2 < (imin + imax) / 2 + 1 - imin
        · obtain ⟨a, m, he, ha1, ha2, ha3, ha4, ha5⟩ :=
            ih imin ((imin + imax) / 2 + 1) ((imin + imax) / 2) h0 (by omega) (by omega)
              (fun i hi1 hi2 => hx i hi1 (by omega))
              (le_trans (hx _ (by omega) (by omega)) (le_of_lt hc)) hhi hd
          exact ⟨a, m, he, ha1, by omega, ha3, ha4, ha5⟩
        · refine ⟨imin, (imin + imax) / 2, ?_, le_refl _, by omega, ?_, hhi, ?_⟩
          · rw [binary_search_loop_exit x v n _ _ _ (by omega)]
            have : (imin + imax) / 2 + 1 = imin + 2 := by omega
            rw [this]
          · have : imin + 2 = (imin + imax) / 2 + 1 := by omega
            rw [this]
            exact le_trans (hx _ (by omega) (by omega)) (le_of_lt hc)
          · right
            refine ⟨by omega, hc⟩
      · simp only [hc, if_false]
        have hge : v ≤ x ((imin + imax) / 2) := not_lt.mp hc
        by_cases hd : 2 < imax - (imin + imax) / 2
        · obtain ⟨a, m, he, ha1, ha2, ha3, ha4, ha5⟩ :=
            ih ((imin + imax) / 2) imax ((imin + imax) / 2) (by omega) h1 (by omega)
              (fun i hi1 hi2 => hx i (by omega) hi2) hlo hge hd
          exact ⟨a, m, he, by omega, ha2, ha3, ha4, ha5⟩
        · refine ⟨(imin + imax) / 2, (imin + imax) / 2, ?_, by omega, by omega, ?_, hge, Or.inl rfl⟩
          · rw [binary_search_loop_exit x v n _ _ _ (by omega)]
            have : imax = (imin + imax) / 2 + 2 := by omega
            rw [← this]
          · have : (imin + imax) / 2 + 2 = imax := by omega
            rw [this]
            exact hlo

/-- Weak bracket of `binary_search` on a descending table and a range wider
than 2: it returns `k` with `imin ≤ k < imax` and `x[k] ≥ value ≥ x[k+1]`. -/
theorem binary_search_bracket {K : Type} [LinearOrder K] (x : Int → K) (v : K)
    (fuel : Nat) (imin imax imid0 : Int) (h0 : 0 ≤ imin) (h1 : imax < 2147483648)
    (hf : imax - imin ≤ fuel)
    (hx : ∀ i, imin ≤ i → i < imax → x (i + 1) ≤ x i)
    (hlo : x imax ≤ v) (hhi : v ≤ x imin) (hw : 2 < imax - imin) :
    ∃ k, binary_search fuel x v imin imax imid0 = Res.ret k ∧
      imin ≤ k ∧ k < imax ∧ v ≤ x k ∧ x (k + 1) ≤ v := by
  obtain ⟨a, m, he, ha1, ha2, ha3, ha4, ha5⟩ :=
    binary_search_loop_spec x v fuel imin imax imid0 h0 h1 hf hx hlo hhi hw
  have hg : ¬ (v > x imin ∨ v < x imax) := by
    rintro (h | h)
    · exact absurd hhi (not_le.mpr h)
    · exact absurd hlo (not_le.mpr h)
  simp only [binary_search, hg, if_false, he]
  rcases ha5 with rfl | ⟨rfl, hlt⟩
  · have : m + 2 - m = 2 := by omega
    simp only [this, if_true]
    by_cases hc : v < x (m + 1)
    · simp only [hc, if_true]
      refine ⟨m + 1, rfl, by omega, by omega, le_of_lt hc, ?_⟩
      have : m + 1 + 1 = m + 2 := by omega
      rw [this]; exact ha3
    · simp only [hc, if_false]
      exact ⟨m, rfl, ha1, by omega, ha4, not_lt.mp hc⟩
  · have : ¬ (a + 2 - (a + 1) = 2) := by omega
    simp only [this, if_false]
    exact ⟨a, rfl, ha1, by omega, ha4, le_of_lt hlt⟩

/-- Weak bracket of `line_search` on a descending table of at least four
lines: an in-range query yields `k` with `1 ≤ k ≤ n - 1` and
`nu[k-1] ≥ value ≥ nu[k]`. -/
theorem line_search_weak {K : Type} [LinearOrder K] (nu : Int → K) (v : K)
    (fuel : Nat) (n imid0 : Int) (hn : 4 ≤ n) (hn2 : n ≤ 2147483648) (hf : n ≤ fuel)
    (hx : ∀ i, 0 ≤ i → i < n - 1 → nu (i + 1) ≤ nu i)
    (hlo : nu (n - 1) ≤ v) (hhi : v ≤ nu 0) :
    ∃ k, line_search fuel nu v n imid0 = Res.ret k ∧
      1 ≤ k ∧ k ≤ n - 1 ∧ nu k ≤ v ∧ v ≤ nu (k - 1) := by
  obtain ⟨k, hk, h1, h2, h3, h4⟩ :=
    binary_search_bracket nu v fuel 0 (n - 1) imid0 (le_refl _) (by omega) (by omega)
      hx hlo hhi (by omega)
  have g1 : ¬ (v > nu 0) := not_lt.mpr hhi
  have g2 : ¬ (v < nu (n - 1)) := not_lt.mpr hlo
  refine ⟨k + 1, ?_, by omega, by omega, h4, ?_⟩
  · simp only [line_search, g1, g2, if_false, hk]
  · have : k + 1 - 1 = k := by omega
    rw [this]; exact h3

/-! ## Claims on the line locator -/

/-- C1 (as amended): on a strictly descending table of `4 ≤ n ≤ 2^31` lines and
an in-range query, `line_search` returns `k` with `1 ≤ k ≤ n - 1` and
`nu[k-1] ≥ value ≥ nu[k]`; the left inequality is strict, `nu[k-1] > value`,
whenever the query is not itself an entry of the table. -/
theorem line_search_bracket {K : Type} [LinearOrder K] (nu : Int → K) (value : K)
    (fuel : Nat) (n imid0 : Int) (hn : 4 ≤ n) (hn2 : n ≤ 2147483648) (hf : n ≤ fuel)
    (hdesc : ∀ i j, 0 ≤ i → i < j → j < n → nu j < nu i)
    (hlo : nu (n - 1) ≤ value) (hhi : value ≤ nu 0) :
    ∃ k, line_search fuel nu value n imid0 = Res.ret k ∧
      1 ≤ k ∧ k ≤ n - 1 ∧ nu (k - 1) ≥ value ∧ value ≥ nu k ∧
      ((∀ i, 0 ≤ i → i < n → nu i ≠ value) → nu (k - 1) > value) := by
  obtain ⟨k, hk, h1, h2, h3, h4⟩ :=
    line_search_weak nu value fuel n imid0 hn hn2 hf
      (fun i hi1 hi2 => le_of_lt (hdesc i (i + 1) hi1 (by omega) (by omega))) hlo hhi
  refine ⟨k, hk, h1, h2, h4, h3, fun hne => ?_⟩
  exact lt_of_le_of_ne h4 (Ne.symm (hne (k - 1) (by omega) (by omega)))

/-- Witness for C1 (as amended): the table `4, 3, 2, 1` queried at `3`. -/
theorem line_search_bracket_witness :
    ∃ k, line_search 4 (table [4, 3, 2, 1] (0 : Int)) 3 4 0 = Res.ret k ∧
      1 ≤ k ∧ k ≤ 4 - 1 ∧ table [4, 3, 2, 1] (0 : Int) (k - 1) ≥ 3 ∧
      3 ≥ table [4, 3, 2, 1] (0 : Int) k ∧
      ((∀ i, 0 ≤ i → i < 4 → table [4, 3, 2, 1] (0 : Int) i ≠ 3) →
        table [4, 3, 2, 1] (0 : Int) (k - 1) > 3) :=
  line_search_bracket (table [4, 3, 2, 1] (0 : Int)) 3 4 4 0 (by decide) (by decide)
    (by decide)
    (by
      intro i j h0 hij hj
      have hi : i = 0 ∨ i = 1 ∨ i = 2 := by omega
      have hj2 : j = 1 ∨ j = 2 ∨ j = 3 := by omega
      rcases hi with rfl | rfl | rfl <;> rcases hj2 with rfl | rfl | rfl <;>
        first | decide | omega)
    (by decide) (by decide)

/-- C1 (counterexample): on the strictly descending table `4, 3, 2, 1` the
in-range query `3` gives `k = 2`, and `nu[1] > 3` does not hold. -/
theorem line_search_strict_bracket_fails :
    (table [4, 3, 2, 1] (0 : Int) 1 < table [4, 3, 2, 1] (0 : Int) 0 ∧
      table [4, 3, 2, 1] (0 : Int) 2 < table [4, 3, 2, 1] (0 : Int) 1 ∧
      table [4, 3, 2, 1] (0 : Int) 3 < table [4, 3, 2, 1] (0 : Int) 2) ∧
    table [4, 3, 2, 1] (0 : Int) (4 - 1) ≤ 3 ∧ 3 ≤ table [4, 3, 2, 1] (0 : Int) 0 ∧
    line_search 4 (table [4, 3, 2, 1] (0 : Int)) 3 4 0 = Res.ret 2 ∧
    ¬ (table [4, 3, 2, 1] (0 : Int) (2 - 1) > 3 ∧ 3 ≥ table [4, 3, 2, 1] (0 : Int) 2) := by
  decide

/-- C2: `line_search` returns `0` when the query exceeds `nu[0]`, returns `n`
when the query is at most `nu[0]` and below `nu[n-1]`, and never ends with the
error indicator set: the error branch of `binary_search` is not reachable
from it. -/
theorem line_search_sentinels {K : Type} [LinearOrder K] (nu : Int → K) (value : K)
    (fuel : Nat) (n imid0 : Int) (hn : 1 ≤ n) :
    (value > nu 0 → line_search fuel nu value n imid0 = Res.ret 0) ∧
    (value ≤ nu 0 → value < nu (n - 1) → line_search fuel nu value n imid0 = Res.ret n) ∧
    (∀ k, line_search fuel nu value n imid0 ≠ Res.raised k) := by
  refine ⟨fun h => ?_, fun h1 h2 => ?_, fun k => ?_⟩
  · simp [line_search, h]
  · have g : ¬ (value > nu 0) := not_lt.mpr h1
    simp [line_search, g, h2]
  · by_cases h1 : value > nu 0
    · simp [line_search, h1]
    · by_cases h2 : value < nu (n - 1)
      · simp [line_search, h1, h2]
      · have hg : ¬ (value > nu 0 ∨ value < nu (n - 1)) := by
          rintro (h | h)
          · exact h1 h
          · exact h2 h
        simp only [line_search, h1, h2, if_false]
        unfold binary_search
        rw [if_neg hg]
        cases binary_search_loop nu value fuel 0 (n - 1) imid0 with
        | none => simp
        | some st =>
            obtain ⟨a, b, m⟩ := st
            dsimp only
            split_ifs <;> simp

/-- Witness for C2: the table `4, 3, 2, 1` queried above, below and inside
its range. -/
theorem line_search_sentinels_witness :
    line_search 0 (table [4, 3, 2, 1] (0 : Int)) 5 4 0 = Res.ret 0 ∧
    line_search 0 (table [4, 3, 2, 1] (0 : Int)) 0 4 0 = Res.ret 4 ∧
    (∀ k, line_search 4 (table [4, 3, 2, 1] (0 : Int)) 2 4 0 ≠ Res.raised k) :=
  ⟨(line_search_sentinels (table [4, 3, 2, 1] (0 : Int)) 5 0 4 0 (by decide)).1 (by decide),
   (line_search_sentinels (table [4, 3, 2, 1] (0 : Int)) 0 0 4 0 (by decide)).2.1
     (by decide) (by decide),
   (line_search_sentinels (table [4, 3, 2, 1] (0 : Int)) 2 4 4 0 (by decide)).2.2⟩

/-! ## Claims on the distance functions -/

/-- C6: for `mu ≥ 0`, `compute_distance2inner` returns `MISS_DISTANCE`, for every
`r`, `r_inner` and whatever the sign of the discriminant. -/
theorem compute_distance2inner_outward {K : Type} [LinearOrderedField K] (sqrt : K → K)
    (MISS_DISTANCE r mu r_inner : K) (hmu : 0 ≤ mu) :
    compute_distance2inner sqrt MISS_DISTANCE r mu r_inner = MISS_DISTANCE := by
  have h : ¬ (mu < 0) := not_lt.mpr hmu
  unfold compute_distance2inner
  simp only [h, if_false]
  split_ifs <;> rfl

/-- Witness for C6: `mu = 0` with a positive and with a negative discriminant. -/
theorem compute_distance2inner_outward_witness :
    compute_distance2inner (fun a : ℚ => a) 100 1 0 2 = 100 ∧
    compute_distance2inner (fun a : ℚ => a) 100 2 0 1 = 100 :=
  ⟨compute_distance2inner_outward (fun a : ℚ => a) 100 1 0 2 (by norm_num),
   compute_distance2inner_outward (fun a : ℚ => a) 100 2 0 1 (by norm_num)⟩

/-! ## Claims on the macro-atom resolver -/

/-- C9: when the segment of the activated level starts with a transition of
probability `1` and type `-1`, `macro_atom` returns that transition's
`target_line_id` for every draw in `[0, 1)`, having consumed exactly one
random number. -/
theorem macro_atom_single_emission {K : Type} [LinearOrderedField K] (rand : Nat → K)
    (wfuel fuel : Nat) (p_transition : Int → K) (p_transition_nd : Int)
    (type_transition target_level_id target_line_id unroll_reference : Int → Int)
    (cur_zone_id activate_level : Int) (draws : Nat)
    (hw : 0 < wfuel) (hf : 0 < fuel)
    (hp : p_transition (cur_zone_id * p_transition_nd + unroll_reference activate_level) = 1)
    (ht : type_transition (unroll_reference activate_level) = -1)
    (hu0 : 0 ≤ rand draws) (hu1 : rand draws < 1) :
    macro_atom rand wfuel p_transition p_transition_nd type_transition target_level_id
      target_line_id unroll_reference cur_zone_id fuel activate_level draws
    = some (target_line_id (unroll_reference activate_level), draws + 1) := by
  obtain ⟨f, rfl⟩ : ∃ f, fuel = f + 1 := ⟨fuel - 1, by omega⟩
  obtain ⟨w, rfl⟩ : ∃ w, wfuel = w + 1 := ⟨wfuel - 1, by omega⟩
  have hgt : (0 : K) + p_transition
      (cur_zone_id * p_transition_nd + unroll_reference activate_level) > rand draws := by
    rw [hp, zero_add]; exact hu1
  simp only [macro_atom, macro_atom_walk, hgt, if_true, ht]

/-- Witness for C9: one level whose single transition emits line `7`; the draw
is `1/2`. -/
theorem macro_atom_single_emission_witness :
    macro_atom (fun _ => (1 / 2 : ℚ)) 1 (fun _ => 1) 1 (fun _ => -1) (fun _ => 0)
      (fun _ => 7) (fun _ => 0) 0 1 0 0 = some (7, 0 + 1) :=
  macro_atom_single_emission (fun _ => (1 / 2 : ℚ)) 1 1 (fun _ => 1) 1 (fun _ => -1)
    (fun _ => 0) (fun _ => 7) (fun _ => 0) 0 0 0 (by decide) (by decide) rfl rfl
    (by norm_num) (by norm_num)

/-! ## Bisection: further helper lemmas -/

/-- On the table `ramp` with the range `0 .. 2^33` the midpoint `2^32` does not
fit the 32-bit `imid`: the stored value is `0`, the loop state does not change,
and the loop is still running after any number of iterations. -/
theorem binary_search_loop_stuck :
    ∀ (fuel : Nat) (imid : Int),
      binary_search_loop ramp (-1) fuel 0 8589934592 imid = none := by
  intro fuel
  induction fuel with
  | zero =>
      intro imid
      simp [binary_search_loop]
  | succ n ih =>
      intro imid
      have hm : wrap32 (Int.tdiv (0 + 8589934592) 2) = 0 := by decide
      have hc : ¬ (ramp 0 < -1) := by decide
      have hw : (8589934592 : Int) - 0 > 2 := by decide
      simp only [binary_search_loop, hw, if_true, hm, hc, if_false]
      exact ih 0

/-- Below `2^31` the loop terminates on every array: with fuel at least the
width of the range it exits with a bracket inside the original one, of width
exactly 2 when it ran at least once, and untouched otherwise. -/
theorem binary_search_loop_terminates {K : Type} [LinearOrder K] (x : Int → K) (v : K) :
    ∀ (fuel : Nat) (imin imax imid : Int), 0 ≤ imin → imax < 2147483648 →
      imax - imin ≤ fuel →
      ∃ a b m, binary_search_loop x v fuel imin imax imid = some (a, b, m) ∧
        imin ≤ a ∧ (2 < imax - imin → b - a = 2 ∧ b ≤ imax) ∧
        (imax - imin ≤ 2 → a = imin ∧ b = imax ∧ m = imid) := by
  intro fuel
  induction fuel with
  | zero =>
      intro imin imax imid _ _ hf
      simp only [Nat.cast_zero] at hf
      refine ⟨imin, imax, imid, binary_search_loop_exit x v 0 imin imax imid (by omega),
        le_refl _, fun h => by omega, fun _ => ⟨rfl, rfl, rfl⟩⟩
  | succ n ih =>
      intro imin imax imid h0 h1 hf
      push_cast at hf
      by_cases hw : imax - imin ≤ 2
      · exact ⟨imin, imax, imid, binary_search_loop_exit x v (n + 1) imin imax imid hw,
          le_refl _, fun h => by omega, fun _ => ⟨rfl, rfl, rfl⟩⟩
      · have hw2 : imax - imin > 2 := by omega
        have hmid := midpoint_eq imin imax h0 (by omega) h1
        simp only [binary_search_loop, hw2, if_true, hmid]
        by_cases hc : x ((imin + imax) / 2) < v
        · simp only [hc, if_true]
          obtain ⟨a, b, m, he, ha, hb, hcs⟩ :=
            ih imin ((imin + imax) / 2 + 1) ((imin + imax) / 2) h0 (by omega) (by omega)
          refine ⟨a, b, m, he, ha, fun _ => ?_, fun h => by omega⟩
          by_cases hd : 2 < (imin + imax) / 2 + 1 - imin
          · have := hb hd
            omega
          · have := hcs (by omega)
            omega
        · simp only [hc, if_false]
          obtain ⟨a, b, m, he, ha, hb, hcs⟩ :=
            ih ((imin + imax) / 2) imax ((imin + imax) / 2) (by omega) h1 (by omega)
          refine ⟨a, b, m, he, by omega, fun _ => ?_, fun h => by omega⟩
          by_cases hd : 2 < imax - (imin + imax) / 2
          · have := hb hd
            omega
          · have := hcs (by omega)
            omega

/-- Below `2^31`, a query inside the range makes `binary_search` return, with no
error, an index that is at least `imin`. -/
theorem binary_search_returns {K : Type} [LinearOrder K] (x : Int → K) (v : K)
    (fuel : Nat) (imin imax imid0 : Int) (h0 : 0 ≤ imin) (h1 : imax < 2147483648)
    (hf : imax - imin ≤ fuel) (hg : ¬ (v > x imin ∨ v < x imax)) :
    ∃ k, binary_search fuel x v imin imax imid0 = Res.ret k ∧ 0 ≤ k := by
  obtain ⟨a, b, m, he, ha, _, _⟩ :=
    binary_search_loop_terminates x v fuel imin imax imid0 h0 h1 hf
  unfold binary_search
  rw [if_neg hg, he]
  dsimp only
  split_ifs
  · exact ⟨a + 1, rfl, by omega⟩
  · exact ⟨a, rfl, by omega⟩
  · exact ⟨a, rfl, by omega⟩

/-- The error outcome of `binary_search` is exactly the failure of its domain
check, and the value returned with it is `-1`. -/
theorem binary_search_raised_iff {K : Type} [LinearOrder K] (x : Int → K) (v : K)
    (fuel : Nat) (imin imax imid0 : Int) :
    ((∃ k, binary_search fuel x v imin imax imid0 = Res.raised k) ↔
      (v > x imin ∨ v < x imax)) ∧
    (∀ k, binary_search fuel x v imin imax imid0 = Res.raised k → k = -1) := by
  by_cases hg : v > x imin ∨ v < x imax
  · have e : binary_search fuel x v imin imax imid0 = Res.raised (-1) := by
      unfold binary_search
      rw [if_pos hg]
    rw [e]
    refine ⟨⟨fun _ => hg, fun _ => ⟨-1, rfl⟩⟩, fun k hk => ?_⟩
    injection hk with hk
    exact hk.symm
  · have e : ∀ k, binary_search fuel x v imin imax imid0 ≠ Res.raised k := by
      intro k
      unfold binary_search
      rw [if_neg hg]
      cases binary_search_loop x v fuel imin imax imid0 with
      | none => simp
      | some st =>
          obtain ⟨a, b, m⟩ := st
          dsimp only
          split_ifs <;> simp
    refine ⟨⟨fun ⟨k, hk⟩ => absurd hk (e k), fun h => absurd h hg⟩,
      fun k hk => absurd hk (e k)⟩

/-! ## Further claims on the bisection -/

/-- C12 (as amended): `binary_search` serves tables sorted descending.  For `x`
descending on `[imin, imax]` with `0 ≤ imin`, `imax - imin ≥ 3`, `imax < 2^31`
and `x[imax] ≤ value ≤ x[imin]` it returns, without error, `k` with
`imin ≤ k < imax` and `x[k] ≥ value ≥ x[k+1]`; on any array with
`y[imin] < y[imax]`, as a non-constant ascending one, every value with
`y[imin] ≤ value ≤ y[imax]` ends in the out-of-domain error, `-1` returned. -/
theorem binary_search_descending {K : Type} [LinearOrder K] (x : Int → K) (value : K)
    (fuel : Nat) (imin imax imid0 : Int) (h0 : 0 ≤ imin) (h1 : imax < 2147483648)
    (hw : 3 ≤ imax - imin) (hf : imax - imin ≤ fuel)
    (hdesc : ∀ i j, imin ≤ i → i ≤ j → j ≤ imax → x j ≤ x i)
    (hlo : x imax ≤ value) (hhi : value ≤ x imin) :
    (∃ k, binary_search fuel x value imin imax imid0 = Res.ret k ∧
      imin ≤ k ∧ k < imax ∧ x k ≥ value ∧ value ≥ x (k + 1)) ∧
    (∀ (y : Int → K) (w : K), y imin < y imax → y imin ≤ w → w ≤ y imax →
      binary_search fuel y w imin imax imid0 = Res.raised (-1)) := by
  constructor
  · exact binary_search_bracket x value fuel imin imax imid0 h0 h1 hf
      (fun i hi1 hi2 => hdesc i (i + 1) hi1 (by omega) (by omega)) hlo hhi (by omega)
  · intro y w hy hw1 hw2
    have hg : w > y imin ∨ w < y imax := by
      rcases lt_or_eq_of_le hw1 with h | h
      · exact Or.inl h
      · exact Or.inr (by rw [← h]; exact hy)
    unfold binary_search
    rw [if_pos hg]

/-- Witness for C12 (as amended): the descending table `4, 3, 2, 1` queried at
`2` on the range `0 .. 3`. -/
theorem binary_search_descending_witness :
    (∃ k, binary_search 3 (table [4, 3, 2, 1] (0 : Int)) 2 0 3 0 = Res.ret k ∧
      0 ≤ k ∧ k < 3 ∧ table [4, 3, 2, 1] (0 : Int) k ≥ 2 ∧
      2 ≥ table [4, 3, 2, 1] (0 : Int) (k + 1)) ∧
    (∀ (y : Int → Int) (w : Int), y 0 < y 3 → y 0 ≤ w → w ≤ y 3 →
      binary_search 3 y w 0 3 0 = Res.raised (-1)) :=
  binary_search_descending (table [4, 3, 2, 1] (0 : Int)) 2 3 0 3 0 (by decide) (by decide)
    (by decide) (by decide)
    (by
      intro i j h0 hij hj
      have hi : i = 0 ∨ i = 1 ∨ i = 2 ∨ i = 3 := by omega
      have hj2 : j = 0 ∨ j = 1 ∨ j = 2 ∨ j = 3 := by omega
      rcases hi with rfl | rfl | rfl | rfl <;> rcases hj2 with rfl | rfl | rfl | rfl <;>
        first | decide | omega)
    (by decide) (by decide)

/-- C12 (counterexample): the ascending array `1, 2, 3, 4`, range `0 .. 3`,
value `2` with `x[0] ≤ 2 ≤ x[3]`: `binary_search` sets the error and
returns `-1`. -/
theorem binary_search_ascending_fails :
    (table [1, 2, 3, 4] (0 : Int) 0 ≤ table [1, 2, 3, 4] (0 : Int) 1 ∧
      table [1, 2, 3, 4] (0 : Int) 1 ≤ table [1, 2, 3, 4] (0 : Int) 2 ∧
      table [1, 2, 3, 4] (0 : Int) 2 ≤ table [1, 2, 3, 4] (0 : Int) 3) ∧
    table [1, 2, 3, 4] (0 : Int) 0 ≤ 2 ∧ 2 ≤ table [1, 2, 3, 4] (0 : Int) 3 ∧
    binary_search 3 (table [1, 2, 3, 4] (0 : Int)) 2 0 3 0 = Res.raised (-1) := by
  decide

/-- C13 (failing input): on the descending table `ramp` with the range
`0 .. 2^33` the value `-1` passes the domain check, yet `binary_search` returns
no index: for every amount of fuel and every initial `imid` the loop is still
running. -/
theorem binary_search_in_range_no_return :
    ¬ ((-1 : Int) > ramp 0 ∨ (-1 : Int) < ramp 8589934592) ∧
    ∀ (fuel : Nat) (imid0 : Int),
      binary_search fuel ramp (-1) 0 8589934592 imid0 = Res.diverged := by
  have hg : ¬ ((-1 : Int) > ramp 0 ∨ (-1 : Int) < ramp 8589934592) := by decide
  refine ⟨hg, fun fuel imid0 => ?_⟩
  unfold binary_search
  rw [if_neg hg, binary_search_loop_stuck fuel imid0]

/-- C16 (failing input): the descending table `3, 2, 1`, range `0 .. 2`, value
`1`.  The loop body never runs; with any content of `imid` other than `0` the
final test `imax - imid == 2` fails and `0` is returned although
`value ≥ x[1]` does not hold; with `imid = 0` the result is `1`. -/
theorem binary_search_tiny_range_uninitialised :
    (table [3, 2, 1] (0 : Int) 1 ≤ table [3, 2, 1] (0 : Int) 0 ∧
      table [3, 2, 1] (0 : Int) 2 ≤ table [3, 2, 1] (0 : Int) 1) ∧
    table [3, 2, 1] (0 : Int) 2 ≤ 1 ∧ 1 ≤ table [3, 2, 1] (0 : Int) 0 ∧
    binary_search 0 (table [3, 2, 1] (0 : Int)) 1 0 2 7 = Res.ret 0 ∧
    ¬ (1 ≥ table [3, 2, 1] (0 : Int) (0 + 1)) ∧
    binary_search 0 (table [3, 2, 1] (0 : Int)) 1 0 2 0 = Res.ret 1 ∧
    (∀ (fuel : Nat) (imid0 : Int), imid0 ≠ 0 →
      binary_search fuel (table [3, 2, 1] (0 : Int)) 1 0 2 imid0 = Res.ret 0) := by
  refine ⟨by decide, by decide, by decide, by decide, by decide, by decide, ?_⟩
  intro fuel imid0 hne
  have hg : ¬ ((1 : Int) > table [3, 2, 1] (0 : Int) 0 ∨
      (1 : Int) < table [3, 2, 1] (0 : Int) 2) := by decide
  have hc : ¬ ((2 : Int) - imid0 = 2) := by omega
  unfold binary_search
  rw [if_neg hg, binary_search_loop_exit _ _ fuel 0 2 imid0 (by decide)]
  simp only [hc, if_false]

/-- C19 (failing input): range `0 .. 2^33` on the table `ramp`, value `-1`.  The
midpoint `2^32` is stored in the 32-bit `imid` as `0`, the test `x[0] < value`
fails, so one iteration maps the state `(0, 2^33, _)` to `(0, 2^33, 0)`:
`imid` is not above `imin`, the width does not decrease, and the loop is
still running after any number of iterations. -/
theorem binary_search_loop_no_progress :
    wrap32 (Int.tdiv (0 + 8589934592) 2) = 0 ∧ ¬ (ramp 0 < -1) ∧
    (∀ (fuel : Nat) (imid : Int),
      binary_search_loop ramp (-1) (fuel + 1) 0 8589934592 imid
        = binary_search_loop ramp (-1) fuel 0 8589934592 0) ∧
    (∀ (fuel : Nat) (imid : Int),
      binary_search_loop ramp (-1) fuel 0 8589934592 imid = none) := by
  refine ⟨by decide, by decide, fun fuel imid => ?_, binary_search_loop_stuck⟩
  rw [binary_search_loop_stuck, binary_search_loop_stuck]

/-- C20 (failing input): the descending table `ramp`, range `0 .. 2^33` (wider
than 3), value `-1` inside the range: `binary_search` returns no index, and
neither does `line_search` on the `2^33 + 1` lines. -/
theorem binary_search_bracket_huge_range :
    (∀ i : Int, ramp (i + 1) ≤ ramp i) ∧ (3 : Int) ≤ 8589934592 - 0 ∧
    ramp 8589934592 ≤ -1 ∧ (-1 : Int) ≤ ramp 0 ∧
    (∀ (fuel : Nat) (imid0 k : Int),
      binary_search fuel ramp (-1) 0 8589934592 imid0 ≠ Res.ret k) ∧
    (∀ (fuel : Nat) (imid0 : Int),
      line_search fuel ramp (-1) 8589934593 imid0 = Res.diverged) := by
  have hg : ¬ ((-1 : Int) > ramp 0 ∨ (-1 : Int) < ramp 8589934592) := by decide
  have hb : ∀ (fuel : Nat) (imid0 : Int),
      binary_search fuel ramp (-1) 0 8589934592 imid0 = Res.diverged := by
    intro fuel imid0
    unfold binary_search
    rw [if_neg hg, binary_search_loop_stuck fuel imid0]
  refine ⟨fun i => by unfold ramp; omega, by decide, by decide, by decide,
    fun fuel imid0 k => by rw [hb]; simp, fun fuel imid0 => ?_⟩
  have g1 : ¬ ((-1 : Int) > ramp 0) := by decide
  have g2 : ¬ ((-1 : Int) < ramp (8589934593 - 1)) := by decide
  simp only [line_search, g1, g2, if_false]
  have e : (8589934593 : Int) - 1 = 8589934592 := by decide
  rw [e, hb]

/-! ## Claims on the macro-atom cascade -/

/-- C18: `macro_atom` follows the cascade with one draw per step.  It returns
`res` exactly when there is a finite run of steps `0 .. n` (within the fuel):
step `m` is taken at `level m` with the draw number `draws + m` and selects the
transition `j m`; `level 0` is the activated level; every step before `n`
selects a transition of type other than `-1` and moves to its
`target_level_id`; step `n` is the first to select a transition of type `-1`;
and `res` is that transition's `target_line_id` together with `n + 1` further
draws consumed. -/
theorem macro_atom_cascade {K : Type} [LinearOrderedField K] (rand : Nat → K)
    (wfuel : Nat) (p_transition : Int → K) (p_transition_nd : Int)
    (type_transition target_level_id target_line_id unroll_reference : Int → Int)
    (cur_zone_id : Int) (fuel : Nat) (activate_level : Int) (draws : Nat)
    (res : Int × Nat) :
    macro_atom rand wfuel p_transition p_transition_nd type_transition target_level_id
      target_line_id unroll_reference cur_zone_id fuel activate_level draws = some res ↔
    ∃ (n : Nat) (level j : Nat → Int), n < fuel ∧ level 0 = activate_level ∧
      (∀ m, m ≤ n →
        macro_atom_walk p_transition (cur_zone_id * p_transition_nd) (rand (draws + m))
          wfuel 0 (unroll_reference (level m)) = some (j m)) ∧
      (∀ m, m < n → type_transition (j m) ≠ -1 ∧ level (m + 1) = target_level_id (j m)) ∧
      type_transition (j n) = -1 ∧
      res = (target_line_id (j n), draws + (n + 1)) := by
  induction fuel generalizing activate_level draws with
  | zero =>
      simp only [macro_atom]
      constructor
      · intro h
        cases h
      · rintro ⟨n, _, _, hn, _⟩
        omega
  | succ f ih =>
      simp only [macro_atom]
      cases hwalk : macro_atom_walk p_transition (cur_zone_id * p_transition_nd)
          (rand draws) wfuel 0 (unroll_reference activate_level) with
      | none =>
          simp only
          constructor
          · intro h
            cases h
          · rintro ⟨n, level, j, _, h0, hstep, _⟩
            have h := hstep 0 (Nat.zero_le n)
            rw [h0, Nat.add_zero, hwalk] at h
            cases h
      | some i =>
          simp only
          by_cases hemit : type_transition i = -1
          · simp only [hemit, if_true]
            constructor
            · intro h
              refine ⟨0, fun _ => activate_level, fun _ => i, by omega, rfl, ?_, ?_, hemit, ?_⟩
              · intro m hm
                have : m = 0 := by omega
                rw [this, Nat.add_zero]
                exact hwalk
              · intro m hm
                omega
              · exact (Option.some.inj h).symm
            · rintro ⟨n, level, j, _, h0, hstep, hcont, _, hres⟩
              have h := hstep 0 (Nat.zero_le n)
              rw [h0, Nat.add_zero, hwalk] at h
              have hj0 : j 0 = i := (Option.some.inj h).symm
              have hn0 : n = 0 := by
                by_contra hne
                have := (hcont 0 (by omega)).1
                rw [hj0] at this
                exact this hemit
              rw [hres, hn0, hj0]
          · simp only [hemit, if_false]
            rw [ih (target_level_id i) (draws + 1)]
            constructor
            · rintro ⟨n, level, j, hn, h0, hstep, hcont, hlast, hres⟩
              refine ⟨n + 1, fun m => if m = 0 then activate_level else level (m - 1),
                fun m => if m = 0 then i else j (m - 1), by omega, by simp, ?_, ?_, ?_, ?_⟩
              · intro m hm
                rcases Nat.eq_zero_or_pos m with h | h
                · rw [h]
                  simpa using hwalk
                · obtain ⟨k, rfl⟩ : ∃ k, m = k + 1 := ⟨m - 1, by omega⟩
                  have := hstep k (by omega)
                  have e : draws + 1 + k = draws + (k + 1) := by omega
                  rw [e] at this
                  simpa using this
              · intro m hm
                rcases Nat.eq_zero_or_pos m with h | h
                · rw [h]
                  simpa [h0] using hemit
                · obtain ⟨k, rfl⟩ : ∃ k, m = k + 1 := ⟨m - 1, by omega⟩
                  have := hcont k (by omega)
                  simpa using this
              · simpa using hlast
              · have e : draws + 1 + (n + 1) = draws + (n + 1 + 1) := by omega
                rw [hres, e]
                simp
            · rintro ⟨n, level, j, hn, h0, hstep, hcont, hlast, hres⟩
              have h := hstep 0 (Nat.zero_le n)
              rw [h0, Nat.add_zero, hwalk] at h
              have hj0 : j 0 = i := (Option.some.inj h).symm
              have hn0 : n ≠ 0 := by
                intro hz
                rw [hz, hj0] at hlast
                exact hemit hlast
              obtain ⟨k, rfl⟩ : ∃ k, n = k + 1 := ⟨n - 1, by omega⟩
              refine ⟨k, fun m => level (m + 1), fun m => j (m + 1), by omega, ?_, ?_, ?_,
                hlast, ?_⟩
              · have := (hcont 0 (by omega)).2
                rw [hj0] at this
                exact this
              · intro m hm
                have := hstep (m + 1) (by omega)
                have e : draws + (m + 1) = draws + 1 + m := by omega
                rw [e] at this
                exact this
              · intro m hm
                exact hcont (m + 1) (by omega)
              · have e : draws + (k + 1 + 1) = draws + 1 + (k + 1) := by omega
                rw [hres, e]

/-- Witness for C18: one level with the transitions "emit" (probability `1/4`,
line id `100`) and "re-enter" (probability `3/4`); the draws `1/2`, `1/8` give
one re-entry and then the emission, after exactly two draws. -/
theorem macro_atom_cascade_witness :
    macro_atom cycle_rand 2 split_segment 2 cycle_type (fun _ => 0) (fun i => i + 100)
      (fun _ => 0) 0 2 0 0 = some (100, 2) :=
  (macro_atom_cascade cycle_rand 2 split_segment 2 cycle_type (fun _ => 0)
    (fun i => i + 100) (fun _ => 0) 0 2 0 0 (100, 2)).mpr
    ⟨1, fun _ => 0, fun m => if m = 0 then 1 else 0, by decide, rfl,
      (by
        intro m hm
        have h : m = 0 ∨ m = 1 := by omega
        rcases h with rfl | rfl
        · norm_num [macro_atom_walk, split_segment, cycle_rand]
        · norm_num [macro_atom_walk, split_segment, cycle_rand]),
      (by
        intro m hm
        have h : m = 0 := by omega
        rw [h]
        exact ⟨by decide, rfl⟩),
      by decide, by decide⟩

/-! ## The distance to the next line -/

/-- C8: `compute_distance2line` ends with the error indicator set exactly when
the comoving frequency it computes, `nu * (1.0 - mu * r * inverse_t_exp *
INVERSE_C)`, compares below `nu_line`; otherwise it returns
`((comov_nu - nu_line) / nu) * C * t_exp` as computed, unchanged; and its
outcome does not depend on `last_line`, `next_line` or `cur_zone_id`.  All
operations are the code's double operations, whatever they return. -/
theorem compute_distance2line_spec {F : Type} (ops : FloatOps F)
    (C INVERSE_C r mu nu nu_line t_exp inverse_t_exp last_line next_line : F)
    (cur_zone_id : Int) :
    ((∃ v, compute_distance2line ops C INVERSE_C r mu nu nu_line t_exp inverse_t_exp
        last_line next_line cur_zone_id = Res.raised v)
      ↔ ops.lt (ops.mul nu (ops.sub ops.one
          (ops.mul (ops.mul (ops.mul mu r) inverse_t_exp) INVERSE_C))) nu_line = true) ∧
    (ops.lt (ops.mul nu (ops.sub ops.one
        (ops.mul (ops.mul (ops.mul mu r) inverse_t_exp) INVERSE_C))) nu_line = false →
      compute_distance2line ops C INVERSE_C r mu nu nu_line t_exp inverse_t_exp
        last_line next_line cur_zone_id
      = Res.ret (ops.mul (ops.mul (ops.div (ops.sub (ops.mul nu (ops.sub ops.one
          (ops.mul (ops.mul (ops.mul mu r) inverse_t_exp) INVERSE_C))) nu_line) nu) C)
          t_exp)) ∧
    (∀ (l1 n1 : F) (z1 : Int),
      compute_distance2line ops C INVERSE_C r mu nu nu_line t_exp inverse_t_exp
        last_line next_line cur_zone_id
      = compute_distance2line ops C INVERSE_C r mu nu nu_line t_exp inverse_t_exp
          l1 n1 z1) := by
  refine ⟨?_, ?_, fun _ _ _ => rfl⟩
  · cases h : ops.lt (ops.mul nu (ops.sub ops.one
        (ops.mul (ops.mul (ops.mul mu r) inverse_t_exp) INVERSE_C))) nu_line
    · simp [compute_distance2line, h]
    · simp [compute_distance2line, h]
  · intro h
    simp [compute_distance2line, h]

/-- Witness for C8: a packet with `nu = 4`, `r = 1`, `mu = 0`, `t_exp = 1`
against the lines `5` (error) and `3` (distance `C / 4 = 7494811450`); every
intermediate value is a binary64 number. -/
theorem compute_distance2line_spec_witness :
    (∃ v, compute_distance2line exact_ops 29979245800 (1 / 34359738368) 1 0 4 5 1 1 0 0 0
      = Res.raised v) ∧
    compute_distance2line exact_ops 29979245800 (1 / 34359738368) 1 0 4 3 1 1 0 0 0
      = Res.ret 7494811450 := by
  have h1 := (compute_distance2line_spec exact_ops 29979245800 (1 / 34359738368) 1 0 4 5
    1 1 0 0 0).1
  have h2 := (compute_distance2line_spec exact_ops 29979245800 (1 / 34359738368) 1 0 4 3
    1 1 0 0 0).2.1
  refine ⟨h1.mpr ?_, ?_⟩
  · simp only [exact_ops]
    norm_num
  · rw [h2 (by simp only [exact_ops]; norm_num)]
    simp only [exact_ops]
    norm_num

/-- C3 (as amended): `K` is the type of the comparable doubles of the table (no
NaN), `val` their inclusion in the doubles `F` of the arithmetic, on which the
double `<` is the order of `K`.  For a strictly descending table of
`4 ≤ n ≤ 2^31` lines and a packet whose computed comoving frequency equals the
entry `nu[j]`, `line_search` returns `k = j` or `k = j + 1`, and
`compute_distance2line` with `nu_line = nu[k]` returns, without error,
`((nu[j] - nu[k]) / nu_packet) * C * t_exp` as the code computes it. -/
theorem round_trip_distance {K F : Type} [LinearOrder K] (ops : FloatOps F) (val : K → F)
    (nu : Int → K) (fuel : Nat) (n imid0 j : Int)
    (C INVERSE_C r mu nu_packet t_exp inverse_t_exp last_line next_line : F)
    (cur_zone_id : Int)
    (hlt : ∀ a b : K, ops.lt (val a) (val b) = true ↔ a < b)
    (hn : 4 ≤ n) (hn2 : n ≤ 2147483648) (hf : n ≤ fuel)
    (hdesc : ∀ i j, 0 ≤ i → i < j → j < n → nu j < nu i)
    (hj0 : 0 ≤ j) (hj1 : j < n)
    (hres : ops.mul nu_packet (ops.sub ops.one
      (ops.mul (ops.mul (ops.mul mu r) inverse_t_exp) INVERSE_C)) = val (nu j)) :
    ∃ k, line_search fuel nu (nu j) n imid0 = Res.ret k ∧
      (k = j ∨ k = j + 1) ∧ 1 ≤ k ∧ k ≤ n - 1 ∧
      compute_distance2line ops C INVERSE_C r mu nu_packet (val (nu k)) t_exp
        inverse_t_exp last_line next_line cur_zone_id
        = Res.ret (ops.mul (ops.mul (ops.div (ops.sub (val (nu j)) (val (nu k)))
            nu_packet) C) t_exp) := by
  have hlo : nu (n - 1) ≤ nu j := by
    rcases lt_or_eq_of_le (show j ≤ n - 1 by omega) with h | h
    · exact le_of_lt (hdesc j (n - 1) hj0 h (by omega))
    · rw [h]
  have hhi : nu j ≤ nu 0 := by
    rcases lt_or_eq_of_le hj0 with h | h
    · exact le_of_lt (hdesc 0 j (le_refl _) h hj1)
    · rw [← h]
  obtain ⟨k, hk, h1, h2, h3, h4⟩ :=
    line_search_weak nu (nu j) fuel n imid0 hn hn2 hf
      (fun i hi1 hi2 => le_of_lt (hdesc i (i + 1) hi1 (by omega) (by omega))) hlo hhi
  have hkj : k = j ∨ k = j + 1 := by
    by_contra hne
    push_neg at hne
    rcases lt_or_gt_of_ne hne.1 with h | h
    · exact absurd h3 (not_le.mpr (hdesc k j (by omega) h hj1))
    · have h5 : j < k - 1 := by omega
      exact absurd h4 (not_le.mpr (hdesc j (k - 1) hj0 h5 (by omega)))
  have hnn : ops.lt (val (nu j)) (val (nu k)) = false := by
    cases hb : ops.lt (val (nu j)) (val (nu k))
    · rfl
    · exact absurd ((hlt _ _).mp hb) (not_lt.mpr h3)
  refine ⟨k, hk, hkj, h1, h2, ?_⟩
  simp [compute_distance2line, hres, hnn]

/-- Witness for C3 (as amended): the table `8, 4, 2, 1` and a packet of
frequency `4` moving tangentially (`mu = 0`), in resonance with `nu[1]`. -/
theorem round_trip_distance_witness :
    ∃ k, line_search 4 (table [8, 4, 2, 1] (0 : ℚ)) (table [8, 4, 2, 1] (0 : ℚ) 1) 4 0
        = Res.ret k ∧
      (k = 1 ∨ k = 1 + 1) ∧ 1 ≤ k ∧ k ≤ 4 - 1 ∧
      compute_distance2line exact_ops 29979245800 (1 / 34359738368) 1 0 4
        ((fun a : ℚ => a) (table [8, 4, 2, 1] (0 : ℚ) k)) 1 1 0 0 0
        = Res.ret (exact_ops.mul (exact_ops.mul (exact_ops.div (exact_ops.sub
            ((fun a : ℚ => a) (table [8, 4, 2, 1] (0 : ℚ) 1))
            ((fun a : ℚ => a) (table [8, 4, 2, 1] (0 : ℚ) k))) 4)
            29979245800) 1) :=
  round_trip_distance exact_ops (fun a : ℚ => a) (table [8, 4, 2, 1] (0 : ℚ)) 4 4 0 1
    29979245800 (1 / 34359738368) 1 0 4 1 1 0 0 0
    (by intro a b; simp [exact_ops])
    (by decide) (by decide) (by decide)
    (by
      intro i j h0 hij hj
      have hi : i = 0 ∨ i = 1 ∨ i = 2 := by omega
      have hj2 : j = 1 ∨ j = 2 ∨ j = 3 := by omega
      rcases hi with rfl | rfl | rfl <;> rcases hj2 with rfl | rfl | rfl <;>
        first | decide | omega)
    (by decide) (by decide)
    (by
      have e : table [8, 4, 2, 1] (0 : ℚ) 1 = 4 := rfl
      rw [e]
      simp only [exact_ops]
      norm_num)

/-- C3 (counterexample): the table `8, 4, 2, 1`, a packet with `nu = 4`,
`mu = 0`, `r = 1`, `t_exp = 1`.  Its comoving frequency is `4 = nu[1]`,
`line_search` returns `2`, and `compute_distance2line` with `nu_line = nu[2]`
returns `((4 - 2) / 4) * C * 1 = 14989622900`, not `0`.  Every intermediate
value is a binary64 number, so these are the values the code computes. -/
theorem round_trip_fails :
    (table [8, 4, 2, 1] (0 : ℚ) 1 < table [8, 4, 2, 1] (0 : ℚ) 0 ∧
      table [8, 4, 2, 1] (0 : ℚ) 2 < table [8, 4, 2, 1] (0 : ℚ) 1 ∧
      table [8, 4, 2, 1] (0 : ℚ) 3 < table [8, 4, 2, 1] (0 : ℚ) 2) ∧
    exact_ops.mul 4 (exact_ops.sub exact_ops.one (exact_ops.mul (exact_ops.mul
      (exact_ops.mul 0 1) 1) (1 / 34359738368))) = table [8, 4, 2, 1] (0 : ℚ) 1 ∧
    line_search 4 (table [8, 4, 2, 1] (0 : ℚ)) (exact_ops.mul 4 (exact_ops.sub
      exact_ops.one (exact_ops.mul (exact_ops.mul (exact_ops.mul 0 1) 1)
        (1 / 34359738368)))) 4 0 = Res.ret 2 ∧
    compute_distance2line exact_ops 29979245800 (1 / 34359738368) 1 0 4
      (table [8, 4, 2, 1] (0 : ℚ) 2) 1 1 0 0 0 = Res.ret 14989622900 ∧
    (14989622900 : ℚ) ≠ 0 := by
  have e : exact_ops.mul 4 (exact_ops.sub exact_ops.one (exact_ops.mul (exact_ops.mul
      (exact_ops.mul 0 1) 1) (1 / 34359738368))) = 4 := by
    simp only [exact_ops]
    norm_num
  have e1 : table [8, 4, 2, 1] (0 : ℚ) 1 = 4 := rfl
  have e2 : table [8, 4, 2, 1] (0 : ℚ) 2 = 2 := rfl
  refine ⟨by decide, by rw [e, e1], ?_, ?_, by norm_num⟩
  · rw [e]
    decide
  · rw [e2]
    simp only [compute_distance2line, exact_ops]
    norm_num

/-! ## Macro atom: the walk in double arithmetic -/

/-- The running sum entered at index `s` with `start` is the running sum
entered at `s + 1` with `start + p_transition[off + s]`. -/
theorem running_sum_shift {F : Type} (add : F → F → F) (p_transition : Int → F)
    (off s : Int) (start : F) :
    ∀ t : Nat, running_sum add p_transition off s start (t + 1)
      = running_sum add p_transition off (s + 1) (add start (p_transition (off + s))) t := by
  intro t
  induction t with
  | zero => simp [running_sum]
  | succ n ih =>
      have e : off + (s + ((n + 1 : Nat) : Int)) = off + (s + 1 + (n : Int)) := by
        push_cast
        ring
      rw [running_sum, ih, e]
      rfl

/-- The walk entered with running sum `p` at index `i` stops at `i + m` when the
running sum first compares above the draw after `m + 1` additions. -/
theorem macro_atom_walk_fp_least {F : Type} (add : F → F → F) (lt : F → F → Bool)
    (p_transition : Int → F) (off : Int) (u : F) :
    ∀ (m fuel : Nat) (p : F) (i : Int), m < fuel →
      (∀ t, t < m → lt u (running_sum add p_transition off i p (t + 1)) = false) →
      lt u (running_sum add p_transition off i p (m + 1)) = true →
      macro_atom_walk_fp add lt p_transition off u fuel p i = some (i + (m : Int)) := by
  intro m
  induction m with
  | zero =>
      intro fuel p i hf _ hgt
      obtain ⟨f, rfl⟩ : ∃ f, fuel = f + 1 := ⟨fuel - 1, by omega⟩
      have hgt1 : lt u (add p (p_transition (off + i))) = true := by
        simpa [running_sum] using hgt
      simp [macro_atom_walk_fp, hgt1]
  | succ k ih =>
      intro fuel p i hf hle hgt
      obtain ⟨f, rfl⟩ : ∃ f, fuel = f + 1 := ⟨fuel - 1, by omega⟩
      have h0 : lt u (add p (p_transition (off + i))) = false := by
        have := hle 0 (Nat.succ_pos k)
        simpa [running_sum] using this
      have hrec := ih f (add p (p_transition (off + i))) (i + 1) (by omega)
        (fun t ht => by
          rw [← running_sum_shift]
          exact hle (t + 1) (by omega))
        (by
          rw [← running_sum_shift]
          exact hgt)
      simp only [macro_atom_walk_fp, h0, hrec]
      simp only [Bool.false_eq_true, if_false]
      congr 1
      push_cast
      ring

/-- When some running sum compares above the draw, the walk stops at the first
index whose running sum does. -/
theorem macro_atom_walk_fp_stops {F : Type} (add : F → F → F) (lt : F → F → Bool)
    (p_transition : Int → F) (off s : Int) (u start : F) (fuel m : Nat)
    (hm : lt u (running_sum add p_transition off s start (m + 1)) = true)
    (hfuel : m < fuel) :
    ∃ j : Nat, j ≤ m ∧
      macro_atom_walk_fp add lt p_transition off u fuel start s = some (s + (j : Int)) ∧
      lt u (running_sum add p_transition off s start (j + 1)) = true ∧
      (∀ t, t < j → lt u (running_sum add p_transition off s start (t + 1)) = false) := by
  classical
  have hex : ∃ t, lt u (running_sum add p_transition off s start (t + 1)) = true := ⟨m, hm⟩
  have hjm : Nat.find hex ≤ m := Nat.find_min' hex hm
  have hj := Nat.find_spec hex
  have hlt : ∀ t, t < Nat.find hex →
      lt u (running_sum add p_transition off s start (t + 1)) = false := by
    intro t ht
    have := Nat.find_min hex ht
    simpa using this
  exact ⟨Nat.find hex, hjm,
    macro_atom_walk_fp_least add lt p_transition off u (Nat.find hex) fuel start s
      (by omega) hlt hj, hj, hlt⟩

/-- No outcome of `macro_atom` has the error indicator set. -/
theorem macro_atom_fp_not_raised {F : Type} (add : F → F → F) (lt : F → F → Bool) (zero : F)
    (rand : Nat → F) (wfuel : Nat) (p_transition : Int → F) (p_transition_nd : Int)
    (type_transition target_level_id target_line_id unroll_reference : Int → Int)
    (cur_zone_id : Int) :
    ∀ (fuel : Nat) (activate_level : Int) (draws : Nat) (v : Int × Nat),
      macro_atom_fp add lt zero rand wfuel p_transition p_transition_nd type_transition
        target_level_id target_line_id unroll_reference cur_zone_id fuel activate_level draws
      ≠ Res.raised v := by
  intro fuel
  induction fuel with
  | zero =>
      intro L d v
      simp [macro_atom_fp]
  | succ f ih =>
      intro L d v
      simp only [macro_atom_fp]
      cases macro_atom_walk_fp add lt p_transition (cur_zone_id * p_transition_nd) (rand d)
          wfuel zero (unroll_reference L) with
      | none => simp
      | some i =>
          simp only
          split_ifs
          · simp
          · exact ih _ _ v

/-- The walk of `macro_atom_walk` is the walk in double arithmetic taken with
the addition and the order of the field. -/
theorem macro_atom_walk_eq_fp {K : Type} [LinearOrderedField K] (p_transition : Int → K)
    (off : Int) (u : K) :
    ∀ (fuel : Nat) (p : K) (i : Int),
      macro_atom_walk p_transition off u fuel p i
      = macro_atom_walk_fp (fun a b => a + b) (fun a b => decide (a < b)) p_transition off u
          fuel p i := by
  intro fuel
  induction fuel with
  | zero =>
      intro p i
      rfl
  | succ f ih =>
      intro p i
      simp only [macro_atom_walk, macro_atom_walk_fp, ih, gt_iff_lt, decide_eq_true_eq]

/-! ## Claims on the walk of the macro atom -/

/-- C11 (as amended): `macro_atom` has no data-integrity error.  When no running
sum accumulated by the code over the level's segment (`len` entries from
`unroll_reference[level]`) compares above the draw, the walk goes on past the
end of the segment and stops at the first later index `s + j`, `j ≥ len`,
whose running sum does; no outcome of `macro_atom` has the error indicator
set, and if the transition at `s + j` has type `-1`, `macro_atom` returns its
`target_line_id` after that one draw. -/
theorem macro_atom_walk_past_segment {F : Type} (add : F → F → F) (lt : F → F → Bool)
    (zero : F) (rand : Nat → F) (wfuel cfuel : Nat) (p_transition : Int → F)
    (p_transition_nd : Int)
    (type_transition target_level_id target_line_id unroll_reference : Int → Int)
    (cur_zone_id activate_level : Int) (draws len m : Nat)
    (hseg : ∀ t, t < len → lt (rand draws) (running_sum add p_transition
      (cur_zone_id * p_transition_nd) (unroll_reference activate_level) zero (t + 1)) = false)
    (hm : lt (rand draws) (running_sum add p_transition
      (cur_zone_id * p_transition_nd) (unroll_reference activate_level) zero (m + 1)) = true)
    (hw : m < wfuel) :
    ∃ j : Nat, len ≤ j ∧ j ≤ m ∧
      macro_atom_walk_fp add lt p_transition (cur_zone_id * p_transition_nd) (rand draws)
        wfuel zero (unroll_reference activate_level)
        = some (unroll_reference activate_level + (j : Int)) ∧
      lt (rand draws) (running_sum add p_transition (cur_zone_id * p_transition_nd)
        (unroll_reference activate_level) zero (j + 1)) = true ∧
      (∀ t, t < j → lt (rand draws) (running_sum add p_transition
        (cur_zone_id * p_transition_nd) (unroll_reference activate_level) zero (t + 1))
        = false) ∧
      (∀ v, macro_atom_fp add lt zero rand wfuel p_transition p_transition_nd
        type_transition target_level_id target_line_id unroll_reference cur_zone_id
        (cfuel + 1) activate_level draws ≠ Res.raised v) ∧
      (type_transition (unroll_reference activate_level + (j : Int)) = -1 →
        macro_atom_fp add lt zero rand wfuel p_transition p_transition_nd type_transition
          target_level_id target_line_id unroll_reference cur_zone_id (cfuel + 1)
          activate_level draws
        = Res.ret (target_line_id (unroll_reference activate_level + (j : Int)),
            draws + 1)) := by
  obtain ⟨j, hjm, hwalk, hj, hlt⟩ :=
    macro_atom_walk_fp_stops add lt p_transition (cur_zone_id * p_transition_nd)
      (unroll_reference activate_level) (rand draws) zero wfuel m hm hw
  have hlen : len ≤ j := by
    by_contra hcon
    have h1 := hseg j (by omega)
    rw [hj] at h1
    cases h1
  refine ⟨j, hlen, hjm, hwalk, hj, hlt, ?_, fun ht => ?_⟩
  · exact macro_atom_fp_not_raised add lt zero rand wfuel p_transition p_transition_nd
      type_transition target_level_id target_line_id unroll_reference cur_zone_id
      (cfuel + 1) activate_level draws
  · simp only [macro_atom_fp, hwalk, ht, if_true]

/-- Witness for C11 (as amended): level `0` of `short_segment` (two entries,
accumulated total `0.5`) and the draw `0.75`, in binary64 arithmetic. -/
theorem macro_atom_walk_past_segment_witness :
    ∃ j : Nat, 2 ≤ j ∧ j ≤ 2 ∧
      macro_atom_walk_fp double_add double_lt short_segment (0 * 3)
        ((fun _ => (⟨3, -2⟩ : Double)) 0) 3 ⟨0, 0⟩ (short_unroll 0)
        = some (short_unroll 0 + (j : Int)) ∧
      double_lt ((fun _ => (⟨3, -2⟩ : Double)) 0) (running_sum double_add short_segment
        (0 * 3) (short_unroll 0) ⟨0, 0⟩ (j + 1)) = true ∧
      (∀ t, t < j → double_lt ((fun _ => (⟨3, -2⟩ : Double)) 0) (running_sum double_add
        short_segment (0 * 3) (short_unroll 0) ⟨0, 0⟩ (t + 1)) = false) ∧
      (∀ v, macro_atom_fp double_add double_lt ⟨0, 0⟩ (fun _ => (⟨3, -2⟩ : Double)) 3
        short_segment 3 short_type (fun _ => 1) (fun i => i + 10) short_unroll 0
        (0 + 1) 0 0 ≠ Res.raised v) ∧
      (short_type (short_unroll 0 + (j : Int)) = -1 →
        macro_atom_fp double_add double_lt ⟨0, 0⟩ (fun _ => (⟨3, -2⟩ : Double)) 3
          short_segment 3 short_type (fun _ => 1) (fun i => i + 10) short_unroll 0
          (0 + 1) 0 0
        = Res.ret ((fun i => i + 10) (short_unroll 0 + (j : Int)), 0 + 1)) :=
  macro_atom_walk_past_segment double_add double_lt ⟨0, 0⟩ (fun _ => (⟨3, -2⟩ : Double)) 3 0
    short_segment 3 short_type (fun _ => 1) (fun i => i + 10) short_unroll 0 0 0 2 2
    (by
      intro t ht
      have h : t = 0 ∨ t = 1 := by omega
      rcases h with rfl | rfl <;> decide)
    (by decide) (by decide)

/-- C11 (counterexample): in `short_segment` the two probabilities of level `0`
accumulate to `0.5`, which does not exceed the draw `0.75`; `macro_atom` does
not abort: the walk runs on to index `2`, a transition of level `1`, and line
id `12` is returned. -/
theorem macro_atom_no_integrity_error :
    double_lt ⟨3, -2⟩ (running_sum double_add short_segment (0 * 3) (short_unroll 0)
      ⟨0, 0⟩ 2) = false ∧
    short_unroll 1 = 2 ∧
    macro_atom_walk_fp double_add double_lt short_segment (0 * 3) ⟨3, -2⟩ 3 ⟨0, 0⟩
      (short_unroll 0) = some 2 ∧
    macro_atom_fp double_add double_lt ⟨0, 0⟩ (fun _ => (⟨3, -2⟩ : Double)) 3 short_segment 3
      short_type (fun _ => 1) (fun i => i + 10) short_unroll 0 1 0 0 = Res.ret (12, 1) := by
  decide

/-- C10 (as amended): one step of `macro_atom` samples by the running sum that the
code accumulates (`p = p + p_transition[...]` from `0.0`, one double addition
per entry, in index order).  When some running sum compares above the draw
`u`, the inner walk stops at the least index `s + j` whose running sum does;
index `s + j1` is selected exactly when its running sum compares above `u` and
no earlier one does; in particular the first transition is selected exactly
when `u < 0.0 + p_transition[off + s]`. -/
theorem macro_atom_walk_inverse_cdf {F : Type} (add : F → F → F) (lt : F → F → Bool)
    (zero : F) (p_transition : Int → F) (p_transition_nd cur_zone_id : Int)
    (unroll_reference : Int → Int) (level : Int) (u : F) (fuel m : Nat)
    (hm : lt u (running_sum add p_transition (cur_zone_id * p_transition_nd)
      (unroll_reference level) zero (m + 1)) = true)
    (hfuel : m < fuel) :
    ∃ j : Nat, j ≤ m ∧
      macro_atom_walk_fp add lt p_transition (cur_zone_id * p_transition_nd) u fuel zero
        (unroll_reference level) = some (unroll_reference level + (j : Int)) ∧
      lt u (running_sum add p_transition (cur_zone_id * p_transition_nd)
        (unroll_reference level) zero (j + 1)) = true ∧
      (∀ t, t < j → lt u (running_sum add p_transition (cur_zone_id * p_transition_nd)
        (unroll_reference level) zero (t + 1)) = false) ∧
      (∀ j1 : Nat,
        macro_atom_walk_fp add lt p_transition (cur_zone_id * p_transition_nd) u fuel zero
          (unroll_reference level) = some (unroll_reference level + (j1 : Int)) ↔
        (lt u (running_sum add p_transition (cur_zone_id * p_transition_nd)
            (unroll_reference level) zero (j1 + 1)) = true ∧
          ∀ t, t < j1 → lt u (running_sum add p_transition (cur_zone_id * p_transition_nd)
            (unroll_reference level) zero (t + 1)) = false)) ∧
      (macro_atom_walk_fp add lt p_transition (cur_zone_id * p_transition_nd) u fuel zero
          (unroll_reference level) = some (unroll_reference level) ↔
        lt u (add zero (p_transition
          (cur_zone_id * p_transition_nd + unroll_reference level))) = true) := by
  obtain ⟨j, hjm, hwalk, hj, hlt⟩ :=
    macro_atom_walk_fp_stops add lt p_transition (cur_zone_id * p_transition_nd)
      (unroll_reference level) u zero fuel m hm hfuel
  have hiff : ∀ j1 : Nat,
      macro_atom_walk_fp add lt p_transition (cur_zone_id * p_transition_nd) u fuel zero
        (unroll_reference level) = some (unroll_reference level + (j1 : Int)) ↔
      (lt u (running_sum add p_transition (cur_zone_id * p_transition_nd)
          (unroll_reference level) zero (j1 + 1)) = true ∧
        ∀ t, t < j1 → lt u (running_sum add p_transition (cur_zone_id * p_transition_nd)
          (unroll_reference level) zero (t + 1)) = false) := by
    intro j1
    constructor
    · intro h
      rw [hwalk] at h
      have e : j = j1 := by
        have h2 := Option.some.inj h
        omega
      rw [← e]
      exact ⟨hj, hlt⟩
    · rintro ⟨h1, h2⟩
      have e : j = j1 := by
        rcases Nat.lt_trichotomy j j1 with h | h | h
        · have := h2 j h
          rw [hj] at this
          cases this
        · exact h
        · have := hlt j1 h
          rw [h1] at this
          cases this
      rw [hwalk, e]
  refine ⟨j, hjm, hwalk, hj, hlt, hiff, ?_⟩
  have h0 := hiff 0
  simp only [Nat.cast_zero, add_zero, zero_add, running_sum] at h0
  rw [h0]
  exact ⟨fun h => h.1, fun h => ⟨h, fun t ht => absurd ht (Nat.not_lt_zero t)⟩⟩

/-- Witness for C10 (as amended): the segment `0.5, 2^-54, 2^-54, 0.5 - 2^-53`
of `rounded_segment` and the draw `0.5`, in binary64 arithmetic. -/
theorem macro_atom_walk_inverse_cdf_witness :
    ∃ j : Nat, j ≤ 3 ∧
      macro_atom_walk_fp double_add double_lt rounded_segment (0 * 1) ⟨1, -1⟩ 4 ⟨0, 0⟩
        ((fun _ => 0) 0) = some ((fun _ => 0) 0 + (j : Int)) ∧
      double_lt ⟨1, -1⟩ (running_sum double_add rounded_segment (0 * 1) ((fun _ => 0) 0)
        ⟨0, 0⟩ (j + 1)) = true ∧
      (∀ t, t < j → double_lt ⟨1, -1⟩ (running_sum double_add rounded_segment (0 * 1)
        ((fun _ => 0) 0) ⟨0, 0⟩ (t + 1)) = false) ∧
      (∀ j1 : Nat,
        macro_atom_walk_fp double_add double_lt rounded_segment (0 * 1) ⟨1, -1⟩ 4 ⟨0, 0⟩
          ((fun _ => 0) 0) = some ((fun _ => 0) 0 + (j1 : Int)) ↔
        (double_lt ⟨1, -1⟩ (running_sum double_add rounded_segment (0 * 1)
            ((fun _ => 0) 0) ⟨0, 0⟩ (j1 + 1)) = true ∧
          ∀ t, t < j1 → double_lt ⟨1, -1⟩ (running_sum double_add rounded_segment (0 * 1)
            ((fun _ => 0) 0) ⟨0, 0⟩ (t + 1)) = false)) ∧
      (macro_atom_walk_fp double_add double_lt rounded_segment (0 * 1) ⟨1, -1⟩ 4 ⟨0, 0⟩
          ((fun _ => 0) 0) = some ((fun _ => 0) 0) ↔
        double_lt ⟨1, -1⟩ (double_add ⟨0, 0⟩ (rounded_segment (0 * 1 + (fun _ => 0) 0)))
          = true) :=
  macro_atom_walk_inverse_cdf double_add double_lt ⟨0, 0⟩ rounded_segment 1 0 (fun _ => 0) 0
    ⟨1, -1⟩ 4 3 (by decide) (by decide)

/-- C10 (counterexample): the segment `0.5, 2^-54, 2^-54, 0.5 - 2^-53` and the
draw `u = 0.5`, with `0 ≤ u < 1`.  The exact sum through index `0` is `0.5`,
not above `u`, and the exact sum through index `1` is `0.5 + 2^-54 > u`, so
the least index of the claim is `1`; in binary64 the running sum stays at
`0.5` until index `3`, which the walk selects. -/
theorem macro_atom_walk_rounded_sum :
    double_lt ⟨1, -1⟩ ⟨0, 0⟩ = false ∧ double_lt ⟨1, -1⟩ ⟨1, 0⟩ = true ∧
    double_lt ⟨1, -1⟩ (rounded_segment 0) = false ∧
    double_lt ⟨1, -1⟩ (exact_add (rounded_segment 0) (rounded_segment 1)) = true ∧
    macro_atom_walk_fp double_add double_lt rounded_segment (0 * 1) ⟨1, -1⟩ 4 ⟨0, 0⟩ 0
      = some 3 := by
  decide

/-- C17 (as amended): when the running sum that the code accumulates over the
current level's segment (`len` entries from `unroll_reference[level]`)
compares above the draw at some index of the segment, the index selected by
the inner walk lies inside the segment, and the selection does not depend on
any entry of `p_transition` outside the segment. -/
theorem macro_atom_walk_in_segment {F : Type} (add : F → F → F) (lt : F → F → Bool)
    (zero : F) (p_transition : Int → F) (p_transition_nd cur_zone_id : Int)
    (unroll_reference : Int → Int) (level : Int) (u : F) (fuel len m : Nat)
    (hmlen : m < len)
    (hm : lt u (running_sum add p_transition (cur_zone_id * p_transition_nd)
      (unroll_reference level) zero (m + 1)) = true)
    (hfuel : len ≤ fuel) :
    ∃ j : Nat, j < len ∧
      macro_atom_walk_fp add lt p_transition (cur_zone_id * p_transition_nd) u fuel zero
        (unroll_reference level) = some (unroll_reference level + (j : Int)) ∧
      (∀ q : Int → F,
        (∀ t : Nat, t < len →
          q (cur_zone_id * p_transition_nd + (unroll_reference level + (t : Int)))
          = p_transition
              (cur_zone_id * p_transition_nd + (unroll_reference level + (t : Int)))) →
        macro_atom_walk_fp add lt q (cur_zone_id * p_transition_nd) u fuel zero
          (unroll_reference level) = some (unroll_reference level + (j : Int))) := by
  obtain ⟨j, hjm, hwalk, hj, hlt⟩ :=
    macro_atom_walk_fp_stops add lt p_transition (cur_zone_id * p_transition_nd)
      (unroll_reference level) u zero fuel m hm (by omega)
  refine ⟨j, by omega, hwalk, fun q hq => ?_⟩
  have hc : ∀ a : Nat, a ≤ len →
      running_sum add q (cur_zone_id * p_transition_nd) (unroll_reference level) zero a
      = running_sum add p_transition (cur_zone_id * p_transition_nd)
          (unroll_reference level) zero a := by
    intro a
    induction a with
    | zero =>
        intro _
        rfl
    | succ n ih =>
        intro ha
        simp only [running_sum]
        rw [ih (by omega), hq n (by omega)]
  apply macro_atom_walk_fp_least add lt q (cur_zone_id * p_transition_nd) u j fuel zero
    (unroll_reference level) (by omega)
  · intro t ht
    rw [hc (t + 1) (by omega)]
    exact hlt t ht
  · rw [hc (j + 1) (by omega)]
    exact hj

/-- Witness for C17 (as amended): the segment of level `0` of `rounded_segment`
(four entries) and the draw `0.5`, in binary64 arithmetic. -/
theorem macro_atom_walk_in_segment_witness :
    ∃ j : Nat, j < 4 ∧
      macro_atom_walk_fp double_add double_lt rounded_segment (0 * 1) ⟨1, -1⟩ 4 ⟨0, 0⟩
        ((fun _ => 0) 0) = some ((fun _ => 0) 0 + (j : Int)) ∧
      (∀ q : Int → Double,
        (∀ t : Nat, t < 4 →
          q (0 * 1 + ((fun _ => 0) 0 + (t : Int)))
          = rounded_segment (0 * 1 + ((fun _ => 0) 0 + (t : Int)))) →
        macro_atom_walk_fp double_add double_lt q (0 * 1) ⟨1, -1⟩ 4 ⟨0, 0⟩
          ((fun _ => 0) 0) = some ((fun _ => 0) 0 + (j : Int))) :=
  macro_atom_walk_in_segment double_add double_lt ⟨0, 0⟩ rounded_segment 1 0 (fun _ => 0) 0
    ⟨1, -1⟩ 4 4 3 (by decide) (by decide) (by decide)

/-- C17 (counterexample): the four entries of level `0` of `rounded_segment` are
non-negative and their exact sum is `1`; the draw `u = 1 - 2^-53` is in
`[0, 1)`.  In binary64 the running sum ends at `1 - 2^-53`, which is not above
`u`, so the walk leaves the segment `0 .. 3` and selects index `4`. -/
theorem macro_atom_walk_leaves_segment :
    (double_lt (rounded_segment 0) ⟨0, 0⟩ = false ∧
      double_lt (rounded_segment 1) ⟨0, 0⟩ = false ∧
      double_lt (rounded_segment 2) ⟨0, 0⟩ = false ∧
      double_lt (rounded_segment 3) ⟨0, 0⟩ = false) ∧
    (double_lt (exact_add (exact_add (exact_add (rounded_segment 0) (rounded_segment 1))
        (rounded_segment 2)) (rounded_segment 3)) ⟨1, 0⟩ = false ∧
      double_lt ⟨1, 0⟩ (exact_add (exact_add (exact_add (rounded_segment 0)
        (rounded_segment 1)) (rounded_segment 2)) (rounded_segment 3)) = false) ∧
    (double_lt ⟨9007199254740991, -53⟩ ⟨0, 0⟩ = false ∧
      double_lt ⟨9007199254740991, -53⟩ ⟨1, 0⟩ = true) ∧
    double_lt ⟨9007199254740991, -53⟩ (running_sum double_add rounded_segment (0 * 1) 0
      ⟨0, 0⟩ 4) = false ∧
    macro_atom_walk_fp double_add double_lt rounded_segment (0 * 1)
      ⟨9007199254740991, -53⟩ 5 ⟨0, 0⟩ 0 = some 4 := by
  decide

end Tardis
